import Mathlib

/-!
Verification development for the visualization-course repository.

Two subjects are formalised here:

* the keyed reconciler (`reconcile`): the enter / update / exit data-join
  partition that the d3 tutorial documents describe conceptually.  The
  repository contains no standalone implementation of it (the tutorials
  delegate to d3's `selection.data`/`join`), so the definitions below are
  modelled from the specification's own algorithm description;

* the `SelectionModel` helper, implemented verbatim in
  `src/d3/introduction-part-2.md`, embedded here with its dispatch
  behaviour made explicit as an event count.
-/

namespace KeyedReconciler

/-- Modelled from the spec: the reconciler is not implemented in the
repository sources, so its error type follows §7 of the specification.
A `duplicateKey` error identifies the offending key and both colliding
positions within the collection whose keys collided. -/
inductive ReconcileError (K : Type) where
  | duplicateKey (key : K) (pos₁ pos₂ : Nat)
  deriving DecidableEq

/-- Modelled from the spec: the three ordered partitions of §3 —
`entering` holds (key, new item) pairs with no prior bound element,
`updating` pairs each consumed old `(key, element, lastDataItem)` triple
with its new data item, and `exiting` holds the old triples whose keys are
absent from the new collection, in old order. -/
structure ReconciliationResult (K E T : Type) where
  entering : List (K × T)
  updating : List ((K × E × T) × T)
  exiting : List (K × E × T)
  deriving DecidableEq

/-- Position of the first occurrence of `k` in a list of keys. -/
def keyIdx [DecidableEq K] (k : K) : List K → Option Nat
  | [] => none
  | x :: rest => if x = k then some 0 else (keyIdx k rest).map (· + 1)

/-- First duplicated key of a list, together with both colliding
positions (the earlier position first). -/
def findDup [DecidableEq K] : List K → Option (K × Nat × Nat)
  | [] => none
  | k :: rest =>
    match keyIdx k rest with
    | some j => some (k, 0, j + 1)
    | none => (findDup rest).map (fun t => (t.1, t.2.1 + 1, t.2.2 + 1))

/-- Modelled from the spec: the scan of §4.1, steps 2 and 3.  The keyed new
data is traversed in order; a key found among the not-yet-consumed old
entries moves that entry to `updating` (consuming it — the entry is erased
from the remaining old entries), otherwise the pair is appended to
`entering`.  Old entries never consumed form `exiting`, in old order. -/
def scanNew [DecidableEq K] :
    List (K × E × T) → List (K × T) →
      List (K × T) × List ((K × E × T) × T) × List (K × E × T)
  | old, [] => ([], [], old)
  | old, (k, d) :: rest =>
    match old.find? (fun e => e.1 = k) with
    | some e =>
      let r := scanNew (old.eraseP (fun e => e.1 = k)) rest
      (r.1, (e, d) :: r.2.1, r.2.2)
    | none =>
      let r := scanNew old rest
      ((k, d) :: r.1, r.2.1, r.2.2)

/-- Modelled from the spec: reconciliation over pre-keyed new data.
Duplicate keys within the new collection — or, defensively, within
`oldBound` — raise `ReconcileError.duplicateKey` before any partition is
produced (§7); otherwise the scan yields the complete partition. -/
def reconcileKeyed [DecidableEq K] (oldBound : List (K × E × T))
    (newKeyed : List (K × T)) :
    Except (ReconcileError K) (ReconciliationResult K E T) :=
  match findDup (newKeyed.map Prod.fst) with
  | some (k, i, j) => .error (.duplicateKey k i j)
  | none =>
    match findDup (oldBound.map Prod.fst) with
    | some (k, i, j) => .error (.duplicateKey k i j)
    | none =>
      let r := scanNew oldBound newKeyed
      .ok ⟨r.1, r.2.1, r.2.2⟩

/-- Modelled from the spec: `reconcile(oldBound, newData, keyFn)` of §4.1
with an explicit key function: every new data item is keyed by `keyFn`. -/
def reconcile [DecidableEq K] (oldBound : List (K × E × T)) (newData : List T)
    (keyFn : T → K) : Except (ReconcileError K) (ReconciliationResult K E T) :=
  reconcileKeyed oldBound (newData.map (fun d => (keyFn d, d)))

/-- Modelled from the spec: the behaviour when `keyFn` is omitted — the
reconciler uses the positional index as the key (index-based join). -/
def reconcileByIndex (oldBound : List (Nat × E × T)) (newData : List T) :
    Except (ReconcileError Nat) (ReconciliationResult Nat E T) :=
  reconcileKeyed oldBound newData.enum

/-! ### Auxiliary lemmas about duplicate detection -/

theorem keyIdx_eq_none_iff [DecidableEq K] {k : K} :
    ∀ {l : List K}, keyIdx k l = none ↔ k ∉ l := by
  intro l
  induction l with
  | nil => simp [keyIdx]
  | cons x rest ih =>
    rw [keyIdx]
    by_cases hx : x = k
    · subst hx
      simp
    · rw [if_neg hx]
      simp only [Option.map_eq_none', ih, List.mem_cons]
      constructor
      · rintro h (rfl | hk)
        · exact hx rfl
        · exact h hk
      · exact fun h hk => h (Or.inr hk)

theorem keyIdx_eq_some [DecidableEq K] {k : K} :
    ∀ {l : List K} {j : Nat}, keyIdx k l = some j → l[j]? = some k := by
  intro l
  induction l with
  | nil => intro j h; simp [keyIdx] at h
  | cons x rest ih =>
    intro j h
    rw [keyIdx] at h
    by_cases hx : x = k
    · rw [if_pos hx] at h
      obtain rfl := Option.some.inj h
      simp [hx]
    · rw [if_neg hx, Option.map_eq_some'] at h
      obtain ⟨j', hj', rfl⟩ := h
      simpa using ih hj'

theorem findDup_eq_none_of_nodup [DecidableEq K] :
    ∀ {l : List K}, l.Nodup → findDup l = none := by
  intro l
  induction l with
  | nil => intro _; rfl
  | cons k rest ih =>
    intro h
    rw [List.nodup_cons] at h
    have hidx : keyIdx k rest = none := keyIdx_eq_none_iff.mpr h.1
    simp [findDup, hidx, ih h.2]

theorem nodup_of_findDup_eq_none [DecidableEq K] :
    ∀ {l : List K}, findDup l = none → l.Nodup := by
  intro l
  induction l with
  | nil => intro _; exact List.nodup_nil
  | cons k rest ih =>
    intro h
    rw [findDup] at h
    match hidx : keyIdx k rest with
    | some j => rw [hidx] at h; exact absurd h (by simp)
    | none =>
      rw [hidx] at h
      simp only [Option.map_eq_none'] at h
      exact List.nodup_cons.mpr ⟨keyIdx_eq_none_iff.mp hidx, ih h⟩

theorem findDup_spec [DecidableEq K] :
    ∀ {l : List K} {k : K} {i j : Nat}, findDup l = some (k, i, j) →
      i < j ∧ l[i]? = some k ∧ l[j]? = some k := by
  intro l
  induction l with
  | nil => intro k i j h; simp [findDup] at h
  | cons x rest ih =>
    intro k i j h
    rw [findDup] at h
    match hidx : keyIdx x rest with
    | some j' =>
      rw [hidx] at h
      simp only [Option.some.injEq, Prod.mk.injEq] at h
      obtain ⟨rfl, rfl, rfl⟩ := h
      exact ⟨Nat.succ_pos j', by simp, by simpa using keyIdx_eq_some hidx⟩
    | none =>
      rw [hidx] at h
      simp only [Option.map_eq_some'] at h
      obtain ⟨⟨k', i', j'⟩, hrec, h⟩ := h
      simp only [Prod.mk.injEq] at h
      obtain ⟨rfl, rfl, rfl⟩ := h
      obtain ⟨hij, hi, hj⟩ := ih hrec
      exact ⟨Nat.succ_lt_succ hij, by simpa using hi, by simpa using hj⟩

/-! ### Auxiliary lemmas about the scan -/

theorem scanNew_find_key [DecidableEq K] {old : List (K × E × T)} {k : K}
    {e : K × E × T} (h : old.find? (fun e => e.1 = k) = some e) : e.1 = k := by
  have h' := List.find?_some h
  exact of_decide_eq_true h'

theorem perm_cons_eraseP {p : α → Bool} :
    ∀ {l : List α} {a : α}, l.find? p = some a → l.Perm (a :: l.eraseP p) := by
  intro l
  induction l with
  | nil => intro a h; simp at h
  | cons x t ih =>
    intro a h
    by_cases hp : p x
    · rw [List.find?_cons_of_pos _ hp] at h
      cases h
      rw [List.eraseP_cons_of_pos hp]
    · rw [List.find?_cons_of_neg _ hp] at h
      rw [List.eraseP_cons_of_neg hp]
      exact ((ih h).cons x).trans (List.Perm.swap a x _)

theorem scanNew_coverage [DecidableEq K] :
    ∀ (new : List (K × T)) (old : List (K × E × T)),
      ((scanNew old new).1.map Prod.fst ++
        (scanNew old new).2.1.map (fun p => p.1.1)).Perm
        (new.map Prod.fst) := by
  intro new
  induction new with
  | nil => intro old; simp [scanNew]
  | cons kd rest ih =>
    intro old
    obtain ⟨k, d⟩ := kd
    rw [scanNew]
    cases hf : old.find? (fun e => e.1 = k) with
    | some e =>
      have hk : e.1 = k := scanNew_find_key hf
      show ((scanNew (old.eraseP (fun e => e.1 = k)) rest).1.map Prod.fst ++
        (e.1 :: (scanNew (old.eraseP (fun e => e.1 = k)) rest).2.1.map
          (fun p => p.1.1))).Perm (k :: rest.map Prod.fst)
      refine List.perm_middle.trans ?_
      rw [hk]
      exact ((ih (old.eraseP (fun e => e.1 = k))).cons k)
    | none =>
      show ((k :: (scanNew old rest).1.map Prod.fst) ++
        (scanNew old rest).2.1.map (fun p => p.1.1)).Perm
        (k :: rest.map Prod.fst)
      exact ((ih old).cons k)

theorem scanNew_preservation [DecidableEq K] :
    ∀ (new : List (K × T)) (old : List (K × E × T)),
      ((scanNew old new).2.2 ++ (scanNew old new).2.1.map Prod.fst).Perm
        old := by
  intro new
  induction new with
  | nil => intro old; simp [scanNew]
  | cons kd rest ih =>
    intro old
    obtain ⟨k, d⟩ := kd
    rw [scanNew]
    cases hf : old.find? (fun e => e.1 = k) with
    | some e =>
      show ((scanNew (old.eraseP (fun e => e.1 = k)) rest).2.2 ++
        (e :: (scanNew (old.eraseP (fun e => e.1 = k)) rest).2.1.map
          Prod.fst)).Perm old
      refine List.perm_middle.trans ?_
      exact ((ih _).cons e).trans (perm_cons_eraseP hf).symm
    | none =>
      exact ih old

theorem scanNew_entering_sublist [DecidableEq K] :
    ∀ (new : List (K × T)) (old : List (K × E × T)),
      (scanNew old new).1.Sublist new := by
  intro new
  induction new with
  | nil => intro old; simp [scanNew]
  | cons kd rest ih =>
    intro old
    obtain ⟨k, d⟩ := kd
    rw [scanNew]
    cases hf : old.find? (fun e => e.1 = k) with
    | some e => exact (ih _).cons (k, d)
    | none => exact (ih old).cons₂ (k, d)

theorem scanNew_exiting_sublist [DecidableEq K] :
    ∀ (new : List (K × T)) (old : List (K × E × T)),
      (scanNew old new).2.2.Sublist old := by
  intro new
  induction new with
  | nil => intro old; exact List.Sublist.refl old
  | cons kd rest ih =>
    intro old
    obtain ⟨k, d⟩ := kd
    rw [scanNew]
    cases hf : old.find? (fun e => e.1 = k) with
    | some e => exact (ih _).trans (List.eraseP_sublist old)
    | none => exact ih old

theorem scanNew_updating_rel [DecidableEq K] (f : T → K) :
    ∀ (new : List (K × T)) (old : List (K × E × T)),
      (∀ x ∈ new, x.1 = f x.2) →
      ∀ p ∈ (scanNew old new).2.1, p.1.1 = f p.2 := by
  intro new
  induction new with
  | nil => intro old _ p hp; simp [scanNew] at hp
  | cons kd rest ih =>
    intro old hnew p hp
    obtain ⟨k, d⟩ := kd
    rw [scanNew] at hp
    cases hf : old.find? (fun e => e.1 = k) with
    | some e =>
      rw [hf] at hp
      simp only [List.mem_cons] at hp
      rcases hp with rfl | hp
      · have hk : e.1 = k := scanNew_find_key hf
        have hkd : k = f d := hnew (k, d) (List.mem_cons_self _ _)
        simpa [hk] using hkd
      · exact ih _ (fun x hx => hnew x (List.mem_cons_of_mem _ hx)) p hp
    | none =>
      rw [hf] at hp
      exact ih old (fun x hx => hnew x (List.mem_cons_of_mem _ hx)) p hp

theorem scanNew_entering_nil [DecidableEq K] :
    ∀ (new : List (K × T)) (old : List (K × E × T)),
      (new.map Prod.fst).Nodup →
      (∀ x ∈ new, x.1 ∈ old.map Prod.fst) →
      (scanNew old new).1 = [] := by
  intro new
  induction new with
  | nil => intro old _ _; rfl
  | cons kd rest ih =>
    intro old hnd hmem
    obtain ⟨k, d⟩ := kd
    have hnd0 : (k :: rest.map Prod.fst).Nodup := by simpa using hnd
    have hnd' := List.nodup_cons.mp hnd0
    rw [scanNew]
    cases hf : old.find? (fun e => e.1 = k) with
    | some e =>
      apply ih _ hnd'.2
      intro x hx
      have hperm := (perm_cons_eraseP hf).map (Prod.fst (α := K) (β := E × T))
      have hxold : x.1 ∈ old.map Prod.fst := hmem x (List.mem_cons_of_mem _ hx)
      have hxk : x.1 ≠ k := by
        intro hxk
        exact hnd'.1 (hxk ▸ List.mem_map_of_mem Prod.fst hx)
      rcases List.mem_cons.mp (hperm.mem_iff.mp hxold) with h1 | h1
      · exact absurd (h1.trans (scanNew_find_key hf)) hxk
      · exact h1
    | none =>
      exfalso
      have hk : k ∈ old.map Prod.fst := hmem (k, d) (List.mem_cons_self _ _)
      obtain ⟨e, he, hek⟩ := List.mem_map.mp hk
      exact (List.find?_eq_none.mp hf e he) (by simp [hek])

theorem scanNew_exiting_nil [DecidableEq K] :
    ∀ (new : List (K × T)) (old : List (K × E × T)),
      (old.map Prod.fst).Nodup →
      (∀ e ∈ old, e.1 ∈ new.map Prod.fst) →
      (scanNew old new).2.2 = [] := by
  intro new
  induction new with
  | nil =>
    intro old _ hmem
    cases old with
    | nil => rfl
    | cons e t => exact absurd (hmem e (List.mem_cons_self _ _)) (by simp)
  | cons kd rest ih =>
    intro old hnd hmem
    obtain ⟨k, d⟩ := kd
    rw [scanNew]
    cases hf : old.find? (fun e => e.1 = k) with
    | some e =>
      have hperm := (perm_cons_eraseP hf).map (Prod.fst (α := K) (β := E × T))
      have hnde : (e.1 :: (old.eraseP (fun e => e.1 = k)).map Prod.fst).Nodup :=
        hperm.nodup hnd
      apply ih _ (List.nodup_cons.mp hnde).2
      intro e' he'
      have he'old : e' ∈ old := List.mem_of_mem_eraseP he'
      have h1 : e'.1 ∈ (k :: rest.map Prod.fst) := by simpa using hmem e' he'old
      rcases List.mem_cons.mp h1 with h2 | h2
      · exfalso
        have hin : e'.1 ∈ (old.eraseP (fun e => e.1 = k)).map Prod.fst :=
          List.mem_map_of_mem _ he'
        have hee' : e.1 = e'.1 := (scanNew_find_key hf).trans h2.symm
        rw [← hee'] at hin
        exact (List.nodup_cons.mp hnde).1 hin
      · exact h2
    | none =>
      apply ih old hnd
      intro e he
      have h1 : e.1 ∈ (k :: rest.map Prod.fst) := by simpa using hmem e he
      rcases List.mem_cons.mp h1 with h2 | h2
      · exact absurd (by simp [h2]) (List.find?_eq_none.mp hf e he)
      · exact h2

theorem scanNew_nil_old [DecidableEq K] :
    ∀ (new : List (K × T)),
      scanNew ([] : List (K × E × T)) new = (new, [], []) := by
  intro new
  induction new with
  | nil => rfl
  | cons kd rest ih =>
    obtain ⟨k, d⟩ := kd
    rw [scanNew]
    show ((k, d) :: (scanNew ([] : List (K × E × T)) rest).1,
      (scanNew ([] : List (K × E × T)) rest).2.1,
      (scanNew ([] : List (K × E × T)) rest).2.2) = ((k, d) :: rest, [], [])
    rw [ih]

theorem reconcileKeyed_eq_ok [DecidableEq K] {old : List (K × E × T)}
    {new : List (K × T)} (h1 : (new.map Prod.fst).Nodup)
    (h2 : (old.map Prod.fst).Nodup) :
    reconcileKeyed old new =
      .ok ⟨(scanNew old new).1, (scanNew old new).2.1,
        (scanNew old new).2.2⟩ := by
  rw [reconcileKeyed, findDup_eq_none_of_nodup h1, findDup_eq_none_of_nodup h2]

theorem newKeyed_map_fst (newData : List T) (keyFn : T → K) :
    (newData.map (fun d => (keyFn d, d))).map Prod.fst = newData.map keyFn := by
  simp [Function.comp]

theorem reconcile_eq_ok [DecidableEq K] (oldBound : List (K × E × T))
    (newData : List T) (keyFn : T → K)
    (h1 : (newData.map keyFn).Nodup) (h2 : (oldBound.map Prod.fst).Nodup) :
    reconcile oldBound newData keyFn = Except.ok
      ⟨(scanNew oldBound (newData.map fun d => (keyFn d, d))).1,
       (scanNew oldBound (newData.map fun d => (keyFn d, d))).2.1,
       (scanNew oldBound (newData.map fun d => (keyFn d, d))).2.2⟩ := by
  apply reconcileKeyed_eq_ok _ h2
  rw [newKeyed_map_fst]
  exact h1

theorem newKeyed_map_snd (newData : List T) (keyFn : T → K) :
    (newData.map (fun d => (keyFn d, d))).map Prod.snd = newData := by
  induction newData with
  | nil => rfl
  | cons d rest ih => simp [ih]

end KeyedReconciler

namespace SelectionModel

/-!
Embedding of `SelectionModel` from `src/d3/introduction-part-2.md`.

The model wraps a JavaScript `Set` (`state`) of selected values and a d3
dispatch helper for the change event.  The `Set` is represented as a
duplicate-free list in insertion order.  Each mutating operation returns
the new state together with the number of times the change event was
dispatched during the call (every registered listener is invoked once per
dispatch).
-/

/-- Source: `has: value => !state.size || state.has(value)`. -/
def has [DecidableEq V] (state : List V) (v : V) : Bool :=
  state.isEmpty || state.contains v

/-- Source: `update(value, add)`: add `value` when `add` is set and
the value is absent, delete it when `add` is unset and the value is
present; either mutation dispatches the change event once, any other call
leaves the state untouched and dispatches nothing. -/
def update [DecidableEq V] (state : List V) (v : V) (add : Bool) :
    List V × Nat :=
  if add && !state.contains v then (state ++ [v], 1)
  else if !add && state.contains v then (state.erase v, 1)
  else (state, 0)

/-- Source: `set: value => (update(value, true), api)`. -/
def set [DecidableEq V] (state : List V) (v : V) : List V × Nat :=
  update state v true

/-- Source: `toggle: value => (update(value, !state.has(value)), api)` — the raw
`state.has(value)` membership test, not the `has` accessor. -/
def toggle [DecidableEq V] (state : List V) (v : V) : List V × Nat :=
  update state v (!state.contains v)

/-- Source: `clear` — when the state set is non-empty, empty it and dispatch the change event once; otherwise do nothing. -/
def clear [DecidableEq V] (state : List V) : List V × Nat :=
  if !state.isEmpty then ([], 1) else (state, 0)

end SelectionModel

deriving instance DecidableEq for Except

section ConcreteScenarios

open KeyedReconciler

example :
    reconcile [(("A" : String), (0 : Nat), "A"), ("B", 1, "B"), ("C", 2, "C")]
      ["B", "C", "D"] id =
    .ok ⟨[("D", "D")], [(("B", 1, "B"), "B"), (("C", 2, "C"), "C")],
      [("A", 0, "A")]⟩ := by
  decide

example :
    reconcile ([] : List (String × Nat × String)) ["X", "X"] id =
    .error (.duplicateKey "X" 0 1) := by
  decide

example :
    reconcileByIndex [(0, 10, 100), (1, 11, 101), (2, 12, 102)]
      [(7 : Nat), 8, 9] =
    .ok ⟨[], [((0, 10, 100), 7), ((1, 11, 101), 8), ((2, 12, 102), 9)], []⟩ := by
  decide

end ConcreteScenarios

section Claims

open KeyedReconciler

/-- C1: for every `oldBound`, `newData` and `keyFn` satisfying the
preconditions (no duplicate keys under `keyFn` on `newData`, unique stored
keys in `oldBound`), `reconcile` succeeds and the keys of `entering`
together with the new-item-side keys of `updating` are exactly the keys of
`newData`: a permutation of the (duplicate-free) key list, and the two
partitions share no key. -/
theorem reconcile_coverage [DecidableEq K] (oldBound : List (K × E × T))
    (newData : List T) (keyFn : T → K)
    (h1 : (newData.map keyFn).Nodup) (h2 : (oldBound.map Prod.fst).Nodup) :
    ∃ res, reconcile oldBound newData keyFn = Except.ok res ∧
      (res.entering.map Prod.fst ++
        res.updating.map (fun p => keyFn p.2)).Perm (newData.map keyFn) ∧
      (res.entering.map Prod.fst).Disjoint
        (res.updating.map (fun p => keyFn p.2)) := by
  have hrel : ∀ p ∈ (scanNew oldBound (newData.map fun d => (keyFn d, d))).2.1,
      p.1.1 = keyFn p.2 := by
    apply scanNew_updating_rel
    intro x hx
    obtain ⟨d, _, rfl⟩ := List.mem_map.mp hx
    rfl
  have hmapeq : (scanNew oldBound (newData.map fun d => (keyFn d, d))).2.1.map
        (fun p => keyFn p.2) =
      (scanNew oldBound (newData.map fun d => (keyFn d, d))).2.1.map
        (fun p => p.1.1) :=
    List.map_congr_left (fun p hp => (hrel p hp).symm)
  have hcov : ((scanNew oldBound (newData.map fun d => (keyFn d, d))).1.map
        Prod.fst ++
      (scanNew oldBound (newData.map fun d => (keyFn d, d))).2.1.map
        (fun p => keyFn p.2)).Perm (newData.map keyFn) := by
    rw [hmapeq]
    have hc := scanNew_coverage (newData.map fun d => (keyFn d, d)) oldBound
    rw [newKeyed_map_fst] at hc
    exact hc
  refine ⟨_, reconcile_eq_ok oldBound newData keyFn h1 h2, hcov, ?_⟩
  have hnd := hcov.symm.nodup h1
  exact (List.nodup_append.mp hnd).2.2

/-- C2: under the same preconditions, the `exiting` elements together with
the old-element side of `updating` are exactly the `oldBound` entries, each
appearing exactly once (a permutation of `oldBound`). -/
theorem reconcile_preservation [DecidableEq K] (oldBound : List (K × E × T))
    (newData : List T) (keyFn : T → K)
    (h1 : (newData.map keyFn).Nodup) (h2 : (oldBound.map Prod.fst).Nodup) :
    ∃ res, reconcile oldBound newData keyFn = Except.ok res ∧
      (res.exiting ++ res.updating.map Prod.fst).Perm oldBound :=
  ⟨_, reconcile_eq_ok oldBound newData keyFn h1 h2,
    scanNew_preservation _ _⟩

/-- C3: under the same preconditions, the items of `entering` are a
subsequence of `newData` (same relative order), and the `exiting` elements
are a subsequence of `oldBound` (same relative order). -/
theorem reconcile_order_preservation [DecidableEq K]
    (oldBound : List (K × E × T)) (newData : List T) (keyFn : T → K)
    (h1 : (newData.map keyFn).Nodup) (h2 : (oldBound.map Prod.fst).Nodup) :
    ∃ res, reconcile oldBound newData keyFn = Except.ok res ∧
      (res.entering.map Prod.snd).Sublist newData ∧
      res.exiting.Sublist oldBound := by
  refine ⟨_, reconcile_eq_ok oldBound newData keyFn h1 h2, ?_,
    scanNew_exiting_sublist _ _⟩
  have hs := (scanNew_entering_sublist (newData.map fun d => (keyFn d, d))
    oldBound).map Prod.snd
  rw [newKeyed_map_snd] at hs
  exact hs

/-- C4: whenever `keyFn` yields the same key at two distinct positions of
`newData`, `reconcile` raises `DuplicateKeyError` identifying an offending
key and both colliding positions, and produces no partition (the result is
an `Except.error`, so no partial `ReconciliationResult` exists). -/
theorem reconcile_duplicate_error [DecidableEq K]
    (oldBound : List (K × E × T)) (newData : List T) (keyFn : T → K)
    (h : ¬ (newData.map keyFn).Nodup) :
    ∃ k i j, reconcile oldBound newData keyFn =
        Except.error (ReconcileError.duplicateKey k i j) ∧
      i < j ∧ (newData.map keyFn)[i]? = some k ∧
      (newData.map keyFn)[j]? = some k := by
  cases hd : findDup (newData.map keyFn) with
  | none => exact absurd (nodup_of_findDup_eq_none hd) h
  | some t =>
    obtain ⟨k, i, j⟩ := t
    obtain ⟨hij, hi, hj⟩ := findDup_spec hd
    refine ⟨k, i, j, ?_, hij, hi, hj⟩
    rw [reconcile, reconcileKeyed, newKeyed_map_fst, hd]

/-- C5: when the key sets of `oldBound` and `newData` coincide (as finite
sets, in any order) and the preconditions hold, the pass is a no-op:
`entering` and `exiting` are empty and `updating` holds every `oldBound`
element exactly once, each paired with the new item carrying its key. -/
theorem reconcile_noop_pass [DecidableEq K] (oldBound : List (K × E × T))
    (newData : List T) (keyFn : T → K)
    (h1 : (newData.map keyFn).Nodup) (h2 : (oldBound.map Prod.fst).Nodup)
    (h3 : (oldBound.map Prod.fst).toFinset = (newData.map keyFn).toFinset) :
    ∃ res, reconcile oldBound newData keyFn = Except.ok res ∧
      res.entering = [] ∧ res.exiting = [] ∧
      (res.updating.map Prod.fst).Perm oldBound ∧
      ∀ p ∈ res.updating, p.1.1 = keyFn p.2 := by
  have h3' : ∀ k, k ∈ oldBound.map Prod.fst ↔ k ∈ newData.map keyFn := by
    intro k
    rw [← List.mem_toFinset, h3, List.mem_toFinset]
  have h1' : ((newData.map fun d => (keyFn d, d)).map Prod.fst).Nodup := by
    rw [newKeyed_map_fst]; exact h1
  have hent : (scanNew oldBound (newData.map fun d => (keyFn d, d))).1 = [] := by
    apply scanNew_entering_nil _ _ h1'
    intro x hx
    obtain ⟨d, hd, rfl⟩ := List.mem_map.mp hx
    exact (h3' (keyFn d)).mpr (List.mem_map_of_mem keyFn hd)
  have hex : (scanNew oldBound (newData.map fun d => (keyFn d, d))).2.2 = [] := by
    apply scanNew_exiting_nil _ _ h2
    intro e he
    rw [newKeyed_map_fst]
    exact (h3' e.1).mp (List.mem_map_of_mem Prod.fst he)
  have hpres := scanNew_preservation (newData.map fun d => (keyFn d, d)) oldBound
  rw [hex] at hpres
  simp only [List.nil_append] at hpres
  refine ⟨_, reconcile_eq_ok oldBound newData keyFn h1 h2, hent, hex,
    hpres, ?_⟩
  apply scanNew_updating_rel
  intro x hx
  obtain ⟨d, _, rfl⟩ := List.mem_map.mp hx
  rfl

/-- C6: reconciling from an empty old collection yields all of `newData`
as keyed `entering` with nothing updating or exiting, and reconciling to an
empty new collection yields all of `oldBound` as `exiting` with nothing
entering or updating (both under the duplicate-free key preconditions of
the contract). -/
theorem reconcile_empty_cases [DecidableEq K] (oldBound : List (K × E × T))
    (newData : List T) (keyFn : T → K)
    (h1 : (newData.map keyFn).Nodup) (h2 : (oldBound.map Prod.fst).Nodup) :
    reconcile ([] : List (K × E × T)) newData keyFn =
      Except.ok ⟨newData.map (fun d => (keyFn d, d)), [], []⟩ ∧
    reconcile oldBound ([] : List T) keyFn =
      Except.ok ⟨[], [], oldBound⟩ := by
  constructor
  · have h := reconcile_eq_ok ([] : List (K × E × T)) newData keyFn h1 (by simp)
    rw [scanNew_nil_old] at h
    exact h
  · exact reconcile_eq_ok oldBound ([] : List T) keyFn (by simp) h2

/-- C7: with `keyFn` omitted the reconciler keys by positional index, so an
old bound collection of length 3 carrying the positional keys 0, 1, 2 (the
stored keys a previous positional pass leaves behind) joined with any new
collection of length 3 — whatever the payloads — places everything in
`updating`, pairing position 0 with 0, 1 with 1 and 2 with 2, with
`entering` and `exiting` both empty. -/
theorem reconcileByIndex_positional (e₀ e₁ e₂ : E) (t₀ t₁ t₂ d₀ d₁ d₂ : T) :
    reconcileByIndex [(0, e₀, t₀), (1, e₁, t₁), (2, e₂, t₂)] [d₀, d₁, d₂] =
      Except.ok ⟨[], [((0, e₀, t₀), d₀), ((1, e₁, t₁), d₁),
        ((2, e₂, t₂), d₂)], []⟩ := rfl

/-- C8: `reconcile` is deterministic — two calls on equal old collections,
equal new collections and pointwise-equal key functions return equal
results (and, the embedding being purely functional, a call cannot mutate
its inputs, create elements or destroy them). -/
theorem reconcile_deterministic [DecidableEq K]
    (old₁ old₂ : List (K × E × T)) (new₁ new₂ : List T) (f g : T → K)
    (hold : old₁ = old₂) (hnew : new₁ = new₂) (hfun : ∀ d, f d = g d) :
    reconcile old₁ new₁ f = reconcile old₂ new₂ g := by
  subst hold hnew
  rw [funext hfun]

end Claims

section SelectionClaims

open SelectionModel

/-- C9: whenever the selection model's state set is empty, `has` answers
true for every value — an empty selection treats all items as selected. -/
theorem selectionModel_has_empty [DecidableEq V] (state : List V)
    (h : state.isEmpty = true) (v : V) : has state v = true := by
  simp [has, h]

/-- C10: each mutating operation dispatches the change event exactly when
it alters membership: `toggle` and `set` dispatch exactly once precisely
when the membership of the value changes, `clear` dispatches exactly once
precisely when the set was non-empty, and a call that leaves the set
unchanged dispatches nothing. -/
theorem selectionModel_dispatch_iff [DecidableEq V] (state : List V)
    (hnd : state.Nodup) (v : V) :
    ((toggle state v).2 =
      if (toggle state v).1.contains v = state.contains v then 0 else 1) ∧
    ((SelectionModel.set state v).2 =
      if (SelectionModel.set state v).1.contains v = state.contains v
      then 0 else 1) ∧
    ((clear state).2 = if state.isEmpty then 0 else 1) := by
  refine ⟨?_, ?_, ?_⟩
  · by_cases hv : v ∈ state
    · have hve : v ∉ state.erase v := List.Nodup.not_mem_erase hnd
      simp [toggle, update, hv, hve]
    · simp [toggle, update, hv]
  · by_cases hv : v ∈ state
    · simp [SelectionModel.set, update, hv]
    · simp [SelectionModel.set, update, hv]
  · by_cases he : state.isEmpty
    · simp [clear, he]
    · simp [clear, he]

end SelectionClaims

section Witnesses

open KeyedReconciler SelectionModel

theorem reconcile_coverage_witness :
    ((["B", "C", "D"].map (id : String → String)).Nodup ∧
      ([(("A" : String), (1 : Nat), "A"), ("B", 2, "B"),
        ("C", 3, "C")].map Prod.fst).Nodup) ∧
    (∃ res, reconcile [(("A" : String), (1 : Nat), "A"), ("B", 2, "B"),
        ("C", 3, "C")] ["B", "C", "D"] id = Except.ok res ∧
      (res.entering.map Prod.fst ++
        res.updating.map (fun p => id p.2)).Perm
        (["B", "C", "D"].map (id : String → String)) ∧
      (res.entering.map Prod.fst).Disjoint
        (res.updating.map (fun p => id p.2))) :=
  ⟨⟨by decide, by decide⟩,
    reconcile_coverage _ _ _ (by decide) (by decide)⟩

theorem reconcile_preservation_witness :
    ((["B", "C", "D"].map (id : String → String)).Nodup ∧
      ([(("A" : String), (1 : Nat), "A"), ("B", 2, "B"),
        ("C", 3, "C")].map Prod.fst).Nodup) ∧
    (∃ res, reconcile [(("A" : String), (1 : Nat), "A"), ("B", 2, "B"),
        ("C", 3, "C")] ["B", "C", "D"] id = Except.ok res ∧
      (res.exiting ++ res.updating.map Prod.fst).Perm
        [(("A" : String), (1 : Nat), "A"), ("B", 2, "B"), ("C", 3, "C")]) :=
  ⟨⟨by decide, by decide⟩,
    reconcile_preservation _ _ _ (by decide) (by decide)⟩

theorem reconcile_order_preservation_witness :
    ((["B", "C", "D"].map (id : String → String)).Nodup ∧
      ([(("A" : String), (1 : Nat), "A"), ("B", 2, "B"),
        ("C", 3, "C")].map Prod.fst).Nodup) ∧
    (∃ res, reconcile [(("A" : String), (1 : Nat), "A"), ("B", 2, "B"),
        ("C", 3, "C")] ["B", "C", "D"] id = Except.ok res ∧
      (res.entering.map Prod.snd).Sublist ["B", "C", "D"] ∧
      res.exiting.Sublist
        [(("A" : String), (1 : Nat), "A"), ("B", 2, "B"), ("C", 3, "C")]) :=
  ⟨⟨by decide, by decide⟩,
    reconcile_order_preservation _ _ _ (by decide) (by decide)⟩

theorem reconcile_duplicate_error_witness :
    (¬ (["X", "X"].map (id : String → String)).Nodup) ∧
    (∃ k i j, reconcile ([] : List (String × Nat × String)) ["X", "X"] id =
        Except.error (ReconcileError.duplicateKey k i j) ∧
      i < j ∧ (["X", "X"].map (id : String → String))[i]? = some k ∧
      (["X", "X"].map (id : String → String))[j]? = some k) :=
  ⟨by decide, reconcile_duplicate_error _ _ _ (by decide)⟩

theorem reconcile_noop_pass_witness :
    ((["B", "A"].map (id : String → String)).Nodup ∧
      ([(("A" : String), (1 : Nat), "A"), ("B", 2, "B")].map Prod.fst).Nodup ∧
      ([(("A" : String), (1 : Nat), "A"),
        ("B", 2, "B")].map Prod.fst).toFinset =
        (["B", "A"].map (id : String → String)).toFinset) ∧
    (∃ res, reconcile [(("A" : String), (1 : Nat), "A"), ("B", 2, "B")]
        ["B", "A"] id = Except.ok res ∧
      res.entering = [] ∧ res.exiting = [] ∧
      (res.updating.map Prod.fst).Perm
        [(("A" : String), (1 : Nat), "A"), ("B", 2, "B")] ∧
      ∀ p ∈ res.updating, p.1.1 = id p.2) :=
  ⟨⟨by decide, by decide, by decide⟩,
    reconcile_noop_pass _ _ _ (by decide) (by decide) (by decide)⟩

theorem reconcile_empty_cases_witness :
    ((["B"].map (id : String → String)).Nodup ∧
      ([(("A" : String), (1 : Nat), "A")].map Prod.fst).Nodup) ∧
    (reconcile ([] : List (String × Nat × String)) ["B"] id =
      Except.ok ⟨["B"].map (fun d => (id d, d)), [], []⟩ ∧
    reconcile [(("A" : String), (1 : Nat), "A")] ([] : List String) id =
      Except.ok ⟨[], [], [(("A" : String), (1 : Nat), "A")]⟩) :=
  ⟨⟨by decide, by decide⟩,
    reconcile_empty_cases _ _ _ (by decide) (by decide)⟩

theorem reconcile_deterministic_witness :
    (([(("A" : String), (1 : Nat), "A")] : List (String × Nat × String)) =
      [("A", 1, "A")] ∧
      (["B"] : List String) = ["B"] ∧ ∀ d : String, id d = id d) ∧
    reconcile [(("A" : String), (1 : Nat), "A")] ["B"] id =
      reconcile [(("A" : String), (1 : Nat), "A")] ["B"] id :=
  ⟨⟨rfl, rfl, fun _ => rfl⟩,
    reconcile_deterministic _ _ _ _ _ _ rfl rfl (fun _ => rfl)⟩

theorem selectionModel_has_empty_witness :
    (([] : List Nat).isEmpty = true) ∧ has ([] : List Nat) 5 = true :=
  ⟨rfl, selectionModel_has_empty [] rfl 5⟩

theorem selectionModel_dispatch_iff_witness :
    (([0, 1] : List Nat).Nodup) ∧
    (((toggle ([0, 1] : List Nat) 0).2 =
      if (toggle ([0, 1] : List Nat) 0).1.contains 0 =
        ([0, 1] : List Nat).contains 0 then 0 else 1) ∧
    ((SelectionModel.set ([0, 1] : List Nat) 0).2 =
      if (SelectionModel.set ([0, 1] : List Nat) 0).1.contains 0 =
        ([0, 1] : List Nat).contains 0 then 0 else 1) ∧
    ((clear ([0, 1] : List Nat)).2 =
      if ([0, 1] : List Nat).isEmpty then 0 else 1)) :=
  ⟨by decide, selectionModel_dispatch_iff [0, 1] (by decide) 0⟩

end Witnesses
